import Mathlib

/-!
# smallsh: command-line parser and process executor

A shallow embedding of `src/smallsh.c` (`promptCommand`, `printStatus`, `execCom`, the body of
the loop of `main`) and the properties of the parser, the `$$` expansion, the redirection set-up
and the status bookkeeping.

C strings are lists of characters (no NUL inside).  Undefined behaviour of the C program (a copy
from a null pointer, a store outside an array) is an explicit `Outcome.fault`.
-/

namespace Smallsh

/-! ## C strings and the libc functions the program calls -/

/-- A NUL-terminated C string, without its terminator. -/
abbrev CStr := List Char

/-- `#define MAXINPUT 2048`. -/
def MAXINPUT : Nat := 2048

/-- `#define MAXARGS 512`: the number of slots of `char *args[MAXARGS]` in `main`. -/
def MAXARGS : Nat := 512

/-- Size of `char inFile[256]` and `char outFile[256]` in `main`. -/
def PATHSIZE : Nat := 256

/-- The needle of `strstr(token, "$$")`. -/
def marker : CStr := ['$', '$']

/-- The path `"/dev/null"`. -/
def devNull : CStr := "/dev/null".toList

/-- libc `strstr(hay, needle)`: offset of the first occurrence of `needle` in `hay`, `none` for a
null result. -/
def strstr : CStr → CStr → Option Nat
  | [], needle => if needle = [] then some 0 else none
  | c :: rest, needle =>
    if needle.isPrefixOf (c :: rest) then some 0
    else (strstr rest needle).map (· + 1)

/-- libc `strtok` with the delimiter string `" "`.  The argument is the part of the buffer not yet
scanned (the saved pointer of `strtok`); the result is the next token and the part left after it,
or `none` when `strtok` returns `NULL`. -/
def strtok (buf : CStr) : Option (CStr × CStr) :=
  let s := buf.dropWhile (· == ' ')
  if s = [] then none
  else some (s.takeWhile (· != ' '), (s.dropWhile (· != ' ')).drop 1)

/-- The conversion `%d` of `snprintf`: decimal digits, with a sign for a negative number. -/
def fmtInt (n : Int) : CStr :=
  if n < 0 then '-' :: Nat.toDigits 10 n.natAbs else Nat.toDigits 10 n.natAbs

/-! ## promptCommand -/

/-- The `$$` loop of `promptCommand` (lines 85-92).  `tmp` is the content of `tmpToken` and `d` the
formatted `pid`.  Each round cuts `tmpToken` at the first marker, formats prefix, pid and the text
after the marker into `expandedToken` with `snprintf(.., MAXINPUT, ..)`, which keeps at most
`MAXINPUT - 1` characters, and copies it back.  `none` when the fuel runs out. -/
def expandLoop (d : CStr) : Nat → CStr → Option CStr
  | 0, _ => none
  | fuel + 1, tmp =>
    match strstr tmp marker with
    | none => some tmp
    | some k => expandLoop d fuel ((tmp.take k ++ d ++ tmp.drop (k + 2)).take (MAXINPUT - 1))

/-- The string stored in `args[i]` for an argument token (lines 81-100): the token itself when
it has no `$$`, the result of the expansion loop otherwise. -/
def expandToken (pid : Int) (token : CStr) : Option CStr :=
  match strstr token marker with
  | none => some token
  | some _ => expandLoop (fmtInt pid) (token.length + 1) token

/-- The variables of `main` that `promptCommand` receives by reference. -/
structure Bufs where
  /-- Value of `int argc`. -/
  argc : Nat
  /-- The array `char *args[MAXARGS]`; `none` is a null pointer. -/
  args : List (Option CStr)
  /-- Content of `char inFile[256]`. -/
  inFile : CStr
  /-- Content of `char outFile[256]`. -/
  outFile : CStr
  /-- Value of `int background`. -/
  background : Nat
  deriving DecidableEq, Repr

/-- Undefined behaviour reached by the C code. -/
inductive Fault where
  /-- Call `strcpy(inFile, token)` or `strcpy(outFile, token)` with `token == NULL`. -/
  | copyFromNull
  /-- A `strcpy` of a path that does not fit the 256-byte buffer of `main`. -/
  | pathOverflow
  /-- The store `args[i] = malloc(..)` with `i` outside `0 .. MAXARGS - 1`. -/
  | argsStore (i : Nat)
  /-- The read `args[*argc-1]` with `*argc == 0`. -/
  | argsReadBefore
  /-- A read of `args[MAXARGS]` by the reset loop of `main`. -/
  | argsReadPast
  /-- Call `strcmp` with a null pointer as `args[0]`. -/
  | strcmpNull
  deriving DecidableEq, Repr

/-- What a run of `promptCommand` ends in. -/
inductive Outcome where
  /-- The function returns `code` and leaves the caller's variables as `st`. -/
  | ret (code : Nat) (st : Bufs)
  /-- The run reaches undefined behaviour. -/
  | fault (f : Fault)
  /-- The model ran out of fuel (never the case, see `promptCommand_ne_outOfFuel`). -/
  | outOfFuel
  deriving DecidableEq, Repr

/-- Lines 107-113: the check of the last argument for `&`, and `return 0`. -/
def checkBackground (st : Bufs) : Outcome :=
  if st.argc = 0 then .fault .argsReadBefore
  else
    match st.args.get? (st.argc - 1) with
    | some (some a) =>
      if a = ['&'] then
        .ret 0 { st with background := 1, args := st.args.set (st.argc - 1) none }
      else .ret 0 st
    | _ => .fault .strcmpNull

/-- A `strcpy` into one of the 256-byte path buffers. -/
def pathFits (path : CStr) : Bool := path.length < PATHSIZE

/-- The `while (token != NULL)` loop of `promptCommand` (lines 63-105).  `buf` is the unscanned
part of `input`, `i` the local index and `st` the caller's variables; each round starts with the
`strtok` call that produced its token. -/
def parseLoop (pid : Int) : Nat → CStr → Nat → Bufs → Outcome
  | 0, _, _, _ => .outOfFuel
  | fuel + 1, buf, i, st =>
    match strtok buf with
    | none => checkBackground st
    | some (token, rest) =>
      if st.argc > 512 then .ret 1 st
      else if token = ['<'] then
        match strtok rest with
        | none => .fault .copyFromNull
        | some (path, rest2) =>
          if pathFits path then parseLoop pid fuel rest2 i { st with inFile := path }
          else .fault .pathOverflow
      else if token = ['>'] then
        match strtok rest with
        | none => .fault .copyFromNull
        | some (path, rest2) =>
          if pathFits path then parseLoop pid fuel rest2 i { st with outFile := path }
          else .fault .pathOverflow
      else
        match expandToken pid token with
        | none => .outOfFuel
        | some a =>
          if i < MAXARGS then
            parseLoop pid fuel rest (i + 1)
              { st with args := st.args.set i (some a), argc := st.argc + 1 }
          else .fault (.argsStore i)

/-- Model of `promptCommand`.  `input` is the content of the local buffer after line 49 (the line
read by `fgets`, its last character cut off). -/
def promptCommand (input : CStr) (pid : Int) (st : Bufs) : Outcome :=
  if input.head? = some '#' ∨ input = [] ∨ input.head? = some ' ' then .ret 1 st
  else if input.length > MAXINPUT then .ret 1 st
  else parseLoop pid (input.length + 1) input 0 { st with argc := 0 }

/-- The variables of `main` when the loop is entered (lines 228-238). -/
def initBufs : Bufs :=
  { argc := 0, args := List.replicate MAXARGS none, inFile := [], outFile := [], background := 0 }

/-! ## printStatus and execCom -/

/-- `WIFEXITED(status)` of `<sys/wait.h>` (glibc): the low seven bits are zero. -/
def WIFEXITED (status : Nat) : Bool := status &&& 0x7f == 0

/-- `WEXITSTATUS(status)` of `<sys/wait.h>` (glibc). -/
def WEXITSTATUS (status : Nat) : Nat := (status &&& 0xff00) >>> 8

/-- `WTERMSIG(status)` of `<sys/wait.h>` (glibc). -/
def WTERMSIG (status : Nat) : Nat := status &&& 0x7f

/-- The wait status of a child that called `exit(n)`. -/
def exitedStatus (n : Nat) : Nat := (n &&& 0xff) <<< 8

/-- The wait status of a child killed by signal `s` (without a core dump). -/
def signaledStatus (s : Nat) : Nat := s &&& 0x7f

/-- Model of `printStatus`: the text it prints. -/
def printStatus (estatus : Nat) : CStr :=
  if WIFEXITED estatus then
    "exit value ".toList ++ fmtInt (WEXITSTATUS estatus) ++ ['\n']
  else
    "terminated by signal ".toList ++ fmtInt (WTERMSIG estatus) ++ ['\n']

/-- What `fork()` returns. -/
inductive Fork where
  /-- The value `-1`. -/
  | failed
  /-- The value `0`: this process is the child. -/
  | child
  /-- The pid of the child: this process is the parent. -/
  | parent (spawnPid : Nat)
  deriving DecidableEq, Repr

/-- What the operating system answers to the `waitpid` calls of the parent in one run of
`execCom`. -/
structure Waits where
  /-- The status stored by the first call, `waitpid(spawnPid, estatus, ..)`; `none` when that
  call collects no child and leaves `*estatus` alone. -/
  first : Option Nat
  /-- For each call `waitpid(-1, estatus, WNOHANG)` of the reaping loop that returns a pid
  greater than zero, that pid and the status stored, in order. -/
  reaped : List (Nat × Nat)
  deriving DecidableEq, Repr

/-- What one run of `execCom` does in the process that runs it. -/
inductive ExecResult where
  /-- `fork` failed: `perror` and `exit(1)`. -/
  | forkFailed
  /-- In the child: the path opened for reading and put on standard input, the path opened
  for writing and put on standard output (`none`: the stream is left alone), and the vector
  given to `execvp`. -/
  | child (openIn openOut : Option CStr) (argv : List CStr)
  /-- In the parent: the final `*estatus`, the text printed, and whether the first `waitpid`
  was the blocking one. -/
  | parent (estatus : Nat) (out : List CStr) (blocked : Bool)
  deriving DecidableEq, Repr

/-- The reaping loop of `execCom` (lines 195-199): every reaped child overwrites `*estatus`. -/
def reapLoop (estatus : Nat) : List (Nat × Nat) → Nat × List CStr
  | [] => (estatus, [])
  | (p, s) :: rest =>
    let r := reapLoop s rest
    (r.1, ("background pid ".toList ++ fmtInt p ++ " is done:".toList ++ printStatus s) :: r.2)

/-- The null-terminated vector that starts at `args[0]`. -/
def argv : List (Option CStr) → List CStr
  | some a :: rest => a :: argv rest
  | _ => []

/-- Model of `execCom`.  `foreground_only` is the global variable. -/
def execCom (args : List (Option CStr)) (inFile outFile : CStr) (estatus background : Nat)
    (foreground_only : Nat) (fk : Fork) (w : Waits) : ExecResult :=
  -- lines 144-147; `strcmp(x, "")` is non-zero exactly when `x` is not empty
  let inFile := if background ≠ 0 ∧ inFile ≠ [] then devNull else inFile
  let outFile := if background ≠ 0 ∧ outFile ≠ [] then devNull else outFile
  match fk with
  | .failed => .forkFailed
  | .child =>
    .child (if inFile ≠ [] then some inFile else none)
      (if outFile ≠ [] then some outFile else none) (argv args)
  | .parent spawnPid =>
    if background &&& (if foreground_only = 0 then 1 else 0) ≠ 0 then
      let r := reapLoop (w.first.getD estatus) w.reaped
      .parent r.1 (("Background process id: ".toList ++ fmtInt spawnPid ++ ['\n']) :: r.2) false
    else
      let r := reapLoop (w.first.getD estatus) w.reaped
      .parent r.1 r.2 true

/-- Model of `handle_SIGTSTP`: the new value of `foreground_only` and the text written. -/
def handle_SIGTSTP (foreground_only : Nat) : Nat × CStr :=
  if foreground_only ≠ 0 then (0, "\nExiting foreground-only mode.\n".toList)
  else (1, "\nEntering foreground-only mode (& is now ignored).\n".toList)

/-! ## The loop of main -/

/-- The variables of `main` and the global flag. -/
structure Shell where
  /-- The variables handed to `promptCommand`. -/
  bufs : Bufs
  /-- Value of `int estatus`, the last status. -/
  estatus : Nat
  /-- Value of the global `foreground_only`. -/
  foreground_only : Nat
  deriving DecidableEq, Repr

/-- An effect of one round of the loop of `main`. -/
inductive Event where
  /-- Text printed on standard output. -/
  | print (s : CStr)
  /-- Call `chdir(getenv("HOME"))`. -/
  | chdirHome
  /-- Call `chdir(args[1])`; `none` is a null pointer. -/
  | chdir (path : Option CStr)
  deriving DecidableEq, Repr

/-- How one round of the loop of `main` ends. -/
inductive Step where
  /-- The loop goes on with these variables, after these effects. -/
  | next (sh : Shell) (ev : List Event)
  /-- The shell called `exit(code)`. -/
  | exit (code : Nat)
  /-- This process is the forked child, about to call `execvp`. -/
  | inChild (openIn openOut : Option CStr) (argv : List CStr)
  /-- The round reached undefined behaviour. -/
  | fault (f : Fault)
  /-- The model ran out of fuel. -/
  | outOfFuel
  deriving DecidableEq, Repr

/-- The reset loop `for (int i=0; args[i]; i++) args[i] = NULL;` (lines 283-285); `none` when it
reads past the end of the array. -/
def clearArgs : List (Option CStr) → Option (List (Option CStr))
  | [] => none
  | none :: rest => some (none :: rest)
  | some _ :: rest => (clearArgs rest).map (none :: ·)

/-- Lines 282-289: the reset of the variables after a command. -/
def resetBufs (sh : Shell) (ev : List Event) : Step :=
  match clearArgs sh.bufs.args with
  | none => .fault .argsReadPast
  | some args =>
    .next { sh with bufs := { argc := 0, args := args, inFile := [], outFile := [],
                              background := 0 } } ev

/-- One round of the `while(1)` loop of `main` (lines 254-290) on the line `input`. -/
def mainIter (input : CStr) (pid : Int) (fk : Fork) (w : Waits) (sh : Shell) : Step :=
  match promptCommand input pid sh.bufs with
  | .fault f => .fault f
  | .outOfFuel => .outOfFuel
  | .ret code st =>
    if code ≠ 0 then .next { sh with bufs := st } []
    else
      match st.args.head? with
      | some (some a0) =>
        if a0 = "exit".toList then .exit 0
        else if a0 = "cd".toList then
          if st.argc = 1 then resetBufs { sh with bufs := st } [.chdirHome]
          else resetBufs { sh with bufs := st } [.chdir ((st.args.get? 1).join)]
        else if a0 = "status".toList then
          resetBufs { sh with bufs := st } [.print (printStatus sh.estatus)]
        else
          match execCom st.args st.inFile st.outFile sh.estatus st.background
              sh.foreground_only fk w with
          | .forkFailed => .exit 1
          | .child i o v => .inChild i o v
          | .parent e out _ =>
            resetBufs { sh with bufs := st, estatus := e } (out.map .print)
      | _ => .fault .strcmpNull

/-- The state of the shell when the loop of `main` is entered. -/
def initShell : Shell := { bufs := initBufs, estatus := 0, foreground_only := 0 }

/-! ## What the specification says, in its own words -/

/-- Specification side: the maximal space-free substrings of a line, left to right. -/
def spaceFreeRuns (line : CStr) : List CStr :=
  (line.splitOn ' ').filter (fun t => t ≠ [])

/-- Specification side: replacement of every `$$`, found left to right and not overlapping,
by `d`. -/
def replaceMarker (d : CStr) : CStr → CStr
  | '$' :: '$' :: rest => d ++ replaceMarker d rest
  | c :: rest => c :: replaceMarker d rest
  | [] => []

/-- Specification side: a line split into argument tokens and the paths of its redirections. -/
structure Parsed where
  /-- Tokens that are neither a redirection operator nor the token consumed by one. -/
  args : List CStr
  /-- Tokens consumed by a `<`, in order. -/
  ins : List CStr
  /-- Tokens consumed by a `>`, in order. -/
  outs : List CStr
  deriving DecidableEq, Repr

/-- Specification side: the reading of a token sequence where a token `<` or `>` consumes the
token that follows it as a path; `none` when such an operator has no token after it. -/
def splitRedirects : List CStr → Option Parsed
  | [] => some { args := [], ins := [], outs := [] }
  | [t] =>
    if t = ['<'] ∨ t = ['>'] then none else some { args := [t], ins := [], outs := [] }
  | t :: path :: rest =>
    if t = ['<'] then
      (splitRedirects rest).map fun p => { p with ins := path :: p.ins }
    else if t = ['>'] then
      (splitRedirects rest).map fun p => { p with outs := path :: p.outs }
    else
      (splitRedirects (path :: rest)).map fun p => { p with args := t :: p.args }

/-- The variables of `main` once the parse loop, started in `st`, has read a line whose
redirections are `p` and whose expanded arguments are `A`. -/
def stored (st : Bufs) (p : Parsed) (A : List CStr) : Bufs :=
  { argc := st.argc + A.length,
    args := st.args.take st.argc ++ A.map some ++ st.args.drop (st.argc + A.length),
    inFile := p.ins.getLast?.getD st.inFile,
    outFile := p.outs.getLast?.getD st.outFile,
    background := st.background }

/-- A line of 513 one-letter arguments, 1025 characters long. -/
def manyArgsLine : CStr := 'a' :: (List.replicate 512 [' ', 'a']).flatten

/-- A token of a thousand markers; it fits the input buffer. -/
def longToken : CStr := List.replicate 2000 '$'

/-! ## The libc models -/

theorem marker_isPrefixOf_cons (c : Char) (rest : CStr) :
    marker.isPrefixOf (c :: rest) = true ↔ c = '$' ∧ rest.head? = some '$' := by
  cases rest with
  | nil => simp [marker, List.isPrefixOf]
  | cons b r =>
    simp only [marker, List.isPrefixOf, Bool.and_true, Bool.and_eq_true, beq_iff_eq,
      List.head?_cons, Option.some.injEq]
    constructor
    · rintro ⟨h1, h2⟩; exact ⟨h1.symm, h2.symm⟩
    · rintro ⟨h1, h2⟩; exact ⟨h1.symm, h2.symm⟩

theorem strstr_nil : strstr [] marker = none := by
  simp [strstr, marker]

theorem strstr_cons_of_ne (c : Char) (rest : CStr) (h : c ≠ '$') :
    strstr (c :: rest) marker = (strstr rest marker).map (· + 1) := by
  have : marker.isPrefixOf (c :: rest) = false := by
    rw [Bool.eq_false_iff]; intro hp
    exact h ((marker_isPrefixOf_cons c rest).1 hp).1
  simp [strstr, this]

theorem strstr_cons_of_head_ne (c : Char) (rest : CStr) (h : rest.head? ≠ some '$') :
    strstr (c :: rest) marker = (strstr rest marker).map (· + 1) := by
  have : marker.isPrefixOf (c :: rest) = false := by
    rw [Bool.eq_false_iff]; intro hp
    exact h ((marker_isPrefixOf_cons c rest).1 hp).2
  simp [strstr, this]

theorem strstr_marker_cons (rest : CStr) : strstr ('$' :: '$' :: rest) marker = some 0 := by
  simp [strstr, marker, List.isPrefixOf]

/-- Offset zero means that the string starts with the marker. -/
theorem strstr_eq_zero {s : CStr} (h : strstr s marker = some 0) :
    ∃ rest, s = '$' :: '$' :: rest := by
  cases s with
  | nil => simp [strstr_nil] at h
  | cons c rest =>
    by_cases hp : marker.isPrefixOf (c :: rest) = true
    · obtain ⟨hc, hr⟩ := (marker_isPrefixOf_cons c rest).1 hp
      cases rest with
      | nil => simp at hr
      | cons b r => simp at hr; exact ⟨r, by rw [hc, hr]⟩
    · simp [strstr, hp] at h

/-- Text free of `$` in front of a string shifts the result of `strstr`. -/
theorem strstr_append_clean (d x : CStr) (hd : '$' ∉ d) :
    strstr (d ++ x) marker = (strstr x marker).map (· + d.length) := by
  induction d with
  | nil => simp
  | cons c d ih =>
    have hc : c ≠ '$' := fun h => hd (by simp [h])
    have hd2 : '$' ∉ d := fun h => hd (by simp [h])
    rw [List.cons_append, strstr_cons_of_ne _ _ hc, ih hd2]
    cases strstr x marker <;> simp [Nat.add_assoc]

/-- The string found by `strstr` splits at the offset. -/
theorem strstr_split {s : CStr} {k : Nat} (h : strstr s marker = some k) :
    s = s.take k ++ '$' :: '$' :: s.drop (k + 2) := by
  induction s generalizing k with
  | nil => simp [strstr_nil] at h
  | cons c rest ih =>
    by_cases hp : marker.isPrefixOf (c :: rest) = true
    · have h0 : strstr (c :: rest) marker = some 0 := by simp [strstr, hp]
      rw [h0] at h
      obtain ⟨r, hr⟩ := strstr_eq_zero h0
      cases h
      rw [hr]; simp
    · have hs : strstr (c :: rest) marker = (strstr rest marker).map (· + 1) := by
        simp [strstr, hp]
      rw [hs] at h
      cases hk : strstr rest marker with
      | none => simp [hk] at h
      | some k2 =>
        simp [hk] at h
        subst h
        have := ih hk
        simp only [List.take_succ_cons, List.drop_succ_cons, List.cons_append]
        rw [← this]

/-- After the first marker is replaced by text free of `$`, the next marker lies in the text
that followed it. -/
theorem strstr_take_append {s : CStr} {k : Nat} (h : strstr s marker = some k) (d x : CStr)
    (hd : '$' ∉ d) :
    strstr (s.take k ++ d ++ x) marker = (strstr x marker).map (· + (k + d.length)) := by
  induction s generalizing k with
  | nil => simp [strstr_nil] at h
  | cons c rest ih =>
    by_cases hp : marker.isPrefixOf (c :: rest) = true
    · have h0 : strstr (c :: rest) marker = some 0 := by simp [strstr, hp]
      rw [h0] at h; cases h
      simpa using strstr_append_clean d x hd
    · have hs : strstr (c :: rest) marker = (strstr rest marker).map (· + 1) := by
        simp [strstr, hp]
      rw [hs] at h
      cases hk : strstr rest marker with
      | none => simp [hk] at h
      | some k2 =>
        simp [hk] at h
        subst h
        have hhead : (rest.take k2 ++ d ++ x).head? ≠ some '$' ∨ c ≠ '$' := by
          by_cases hc : c = '$'
          · left
            have hr : rest.head? ≠ some '$' := fun hr =>
              hp ((marker_isPrefixOf_cons c rest).2 ⟨hc, hr⟩)
            cases k2 with
            | zero =>
              obtain ⟨r, hr2⟩ := strstr_eq_zero hk
              rw [hr2] at hr; simp at hr
            | succ k3 =>
              cases rest with
              | nil => simp [strstr_nil] at hk
              | cons b r => simpa using hr
          · right; exact hc
        have hstep : strstr (c :: (rest.take k2 ++ d ++ x)) marker
            = (strstr (rest.take k2 ++ d ++ x) marker).map (· + 1) := by
          rcases hhead with h1 | h1
          · exact strstr_cons_of_head_ne _ _ h1
          · exact strstr_cons_of_ne _ _ h1
        simp only [List.take_succ_cons, List.cons_append]
        rw [hstep, ih hk]
        cases strstr x marker <;> simp; omega

theorem replaceMarker_marker (d rest : CStr) :
    replaceMarker d ('$' :: '$' :: rest) = d ++ replaceMarker d rest := by
  simp [replaceMarker]

theorem replaceMarker_cons (d : CStr) (c : Char) (rest : CStr)
    (h : marker.isPrefixOf (c :: rest) = false) :
    replaceMarker d (c :: rest) = c :: replaceMarker d rest := by
  rw [replaceMarker]
  intro r hc hr
  have : marker.isPrefixOf (c :: rest) = true := by
    rw [marker_isPrefixOf_cons]
    simp [hc, hr]
  rw [h] at this; cases this

/-- Without a marker the replacement changes nothing. -/
theorem replaceMarker_of_strstr_none (d : CStr) {s : CStr} (h : strstr s marker = none) :
    replaceMarker d s = s := by
  induction s with
  | nil => simp [replaceMarker]
  | cons c rest ih =>
    by_cases hp : marker.isPrefixOf (c :: rest) = true
    · simp [strstr, hp] at h
    · have hs : strstr (c :: rest) marker = (strstr rest marker).map (· + 1) := by
        simp [strstr, hp]
      rw [hs] at h
      have hr : strstr rest marker = none := by
        cases hk : strstr rest marker with
        | none => rfl
        | some k => simp [hk] at h
      rw [replaceMarker_cons d c rest (Bool.eq_false_iff.mpr hp), ih hr]

/-- The replacement, unfolded at the first marker. -/
theorem replaceMarker_of_strstr_some (d : CStr) {s : CStr} {k : Nat}
    (h : strstr s marker = some k) :
    replaceMarker d s = s.take k ++ d ++ replaceMarker d (s.drop (k + 2)) := by
  induction s generalizing k with
  | nil => simp [strstr_nil] at h
  | cons c rest ih =>
    by_cases hp : marker.isPrefixOf (c :: rest) = true
    · have h0 : strstr (c :: rest) marker = some 0 := by simp [strstr, hp]
      rw [h0] at h
      obtain ⟨r, hr⟩ := strstr_eq_zero h0
      cases h
      rw [hr, replaceMarker_marker]; simp
    · have hs : strstr (c :: rest) marker = (strstr rest marker).map (· + 1) := by
        simp [strstr, hp]
      rw [hs] at h
      cases hk : strstr rest marker with
      | none => simp [hk] at h
      | some k2 =>
        simp [hk] at h
        subst h
        rw [replaceMarker_cons d c rest (Bool.eq_false_iff.mpr hp), ih hk]
        simp

/-- Replacing the first marker by text free of `$` removes two `$` from the string. -/
theorem count_replace_first {s : CStr} {k : Nat} (h : strstr s marker = some k) (d : CStr)
    (hd : '$' ∉ d) :
    (s.take k ++ d ++ s.drop (k + 2)).count '$' + 2 = s.count '$' := by
  have hs := strstr_split h
  have hc : s.count '$' = (s.take k ++ '$' :: '$' :: s.drop (k + 2)).count '$' := by rw [← hs]
  rw [hc]
  simp [List.count_append, List.count_eq_zero_of_not_mem hd]
  omega

theorem strstr_bound {s : CStr} {k : Nat} (h : strstr s marker = some k) :
    k + 2 ≤ s.length := by
  have hs := congrArg List.length (strstr_split h)
  simp only [List.length_append, List.length_cons, List.length_take, List.length_drop] at hs
  omega

theorem digitChar_ne_dollar : ∀ m, m < 10 → Nat.digitChar m ≠ '$' ∧ Nat.digitChar m ≠ '&' := by
  decide

theorem toDigitsCore_not_mem (c : Char) (hc : ∀ m, m < 10 → Nat.digitChar m ≠ c)
    (fuel n : Nat) (acc : List Char) (h : c ∉ acc) :
    c ∉ Nat.toDigitsCore 10 fuel n acc := by
  induction fuel generalizing n acc with
  | zero => simpa [Nat.toDigitsCore] using h
  | succ f ih =>
    have hacc : c ∉ Nat.digitChar (n % 10) :: acc := by
      simp only [List.mem_cons, not_or]
      exact ⟨fun e => hc _ (Nat.mod_lt _ (by decide)) e.symm, h⟩
    simp only [Nat.toDigitsCore]
    split
    · exact hacc
    · exact ih _ _ hacc

theorem toDigitsCore_length_ge (fuel n : Nat) (acc : List Char) :
    acc.length ≤ (Nat.toDigitsCore 10 fuel n acc).length := by
  induction fuel generalizing n acc with
  | zero => simp [Nat.toDigitsCore]
  | succ f ih =>
    simp only [Nat.toDigitsCore]
    split
    · simp
    · exact Nat.le_trans (by simp) (ih _ _)

/-- The formatted pid has no `$`. -/
theorem fmtInt_noDollar (n : Int) : '$' ∉ fmtInt n := by
  have h : '$' ∉ Nat.toDigits 10 n.natAbs :=
    toDigitsCore_not_mem _ (fun m hm => (digitChar_ne_dollar m hm).1) _ _ _ (by simp)
  unfold fmtInt
  split
  · simp only [List.mem_cons, not_or]
    exact ⟨by decide, h⟩
  · exact h

/-- The formatted pid has no `&`. -/
theorem fmtInt_noAmp (n : Int) : '&' ∉ fmtInt n := by
  have h : '&' ∉ Nat.toDigits 10 n.natAbs :=
    toDigitsCore_not_mem _ (fun m hm => (digitChar_ne_dollar m hm).2) _ _ _ (by simp)
  unfold fmtInt
  split
  · simp only [List.mem_cons, not_or]
    exact ⟨by decide, h⟩
  · exact h

/-- The formatted pid has at least one character. -/
theorem fmtInt_ne_nil (n : Int) : fmtInt n ≠ [] := by
  have h : Nat.toDigits 10 n.natAbs ≠ [] := by
    intro h0
    have h1 : (Nat.toDigitsCore 10 (n.natAbs + 1) n.natAbs []).length = 0 := by
      have := congrArg List.length h0
      simpa [Nat.toDigits] using this
    simp only [Nat.toDigitsCore] at h1
    split at h1
    · simp at h1
    · have := toDigitsCore_length_ge n.natAbs (n.natAbs / 10)
        [Nat.digitChar (n.natAbs % 10)]
      simp only [List.length_cons, List.length_nil] at this
      omega
  unfold fmtInt
  split
  · simp
  · exact h

/-- The expansion loop ends, whatever the truncation by `snprintf` does: every round removes
two `$` from `tmpToken`.  The result has no marker and fits the buffer when the token did. -/
theorem expandLoop_total (d : CStr) (hd : '$' ∉ d) (fuel : Nat) (tmp : CStr)
    (hf : tmp.count '$' < fuel) :
    ∃ r, expandLoop d fuel tmp = some r ∧ strstr r marker = none ∧
      (tmp.length < MAXINPUT → r.length < MAXINPUT) := by
  induction fuel generalizing tmp with
  | zero => omega
  | succ f ih =>
    cases hk : strstr tmp marker with
    | none => exact ⟨tmp, by simp [expandLoop, hk], hk, fun h => h⟩
    | some k =>
      have hc := count_replace_first hk d hd
      have hle : ((tmp.take k ++ d ++ tmp.drop (k + 2)).take (MAXINPUT - 1)).count '$'
          ≤ (tmp.take k ++ d ++ tmp.drop (k + 2)).count '$' :=
        (List.take_sublist _ _).count_le _
      obtain ⟨r, hr, hn, hl⟩ := ih ((tmp.take k ++ d ++ tmp.drop (k + 2)).take (MAXINPUT - 1))
        (by omega)
      refine ⟨r, by simp only [expandLoop, hk]; exact hr, hn, fun _ => hl ?_⟩
      have := List.length_take_le (MAXINPUT - 1) (tmp.take k ++ d ++ tmp.drop (k + 2))
      simp only [MAXINPUT] at this ⊢
      omega

/-- The expansion of a token always produces a string, one without a marker. -/
theorem expandToken_total (pid : Int) (token : CStr) :
    ∃ r, expandToken pid token = some r ∧ strstr r marker = none ∧
      (token.length < MAXINPUT → r.length < MAXINPUT) := by
  cases hk : strstr token marker with
  | none => exact ⟨token, by simp [expandToken, hk], hk, fun h => h⟩
  | some k =>
    obtain ⟨r, hr, hn, hl⟩ := expandLoop_total (fmtInt pid) (fmtInt_noDollar pid)
      (token.length + 1) token (Nat.lt_succ_of_le (List.count_le_length _ _))
    exact ⟨r, by simp [expandToken, hk, hr], hn, hl⟩

/-- A string without a marker is stored as it is. -/
theorem expandToken_of_strstr_none (pid : Int) {r : CStr} (h : strstr r marker = none) :
    expandToken pid r = some r := by
  simp [expandToken, h]

/-- A replacement text of two characters or more never shortens the string. -/
theorem length_le_replaceMarker (d : CStr) (hd : 2 ≤ d.length) (s : CStr) :
    s.length ≤ (replaceMarker d s).length := by
  obtain ⟨n, hn⟩ : ∃ n, s.length = n := ⟨_, rfl⟩
  induction n using Nat.strong_induction_on generalizing s with
  | _ n ih =>
    cases hk : strstr s marker with
    | none => rw [replaceMarker_of_strstr_none d hk]
    | some k =>
      have hb := strstr_bound hk
      rw [replaceMarker_of_strstr_some d hk]
      have := ih (s.drop (k + 2)).length (by simp; omega) (s.drop (k + 2)) rfl
      simp only [List.length_append, List.length_take, List.length_drop] at this ⊢
      omega

/-- The expansion loop without truncation: behind a finished prefix `p` the loop replaces the
markers of `s` from left to right. -/
theorem expandLoop_exact (d : CStr) (hd : '$' ∉ d) (fuel : Nat) (s p : CStr)
    (hp : ∀ x, strstr (p ++ x) marker = (strstr x marker).map (· + p.length))
    (hf : s.count '$' < fuel) (hlen : (p ++ s).length < MAXINPUT)
    (hfin : (p ++ replaceMarker d s).length < MAXINPUT) :
    expandLoop d fuel (p ++ s) = some (p ++ replaceMarker d s) := by
  induction fuel generalizing s p with
  | zero => omega
  | succ f ih =>
    cases hk : strstr s marker with
    | none =>
      have h1 : strstr (p ++ s) marker = none := by rw [hp, hk]; rfl
      simp [expandLoop, h1, replaceMarker_of_strstr_none d hk]
    | some k =>
      have hb := strstr_bound hk
      have h1 : strstr (p ++ s) marker = some (k + p.length) := by rw [hp, hk]; rfl
      have hrep := replaceMarker_of_strstr_some d hk
      have htake : (p ++ s).take (k + p.length) = p ++ s.take k := by
        rw [Nat.add_comm, List.take_append]
      have hdrop : (p ++ s).drop (k + p.length + 2) = s.drop (k + 2) := by
        have : k + p.length + 2 = p.length + (k + 2) := by omega
        rw [this, List.drop_append]
      have hc := count_replace_first hk d hd
      have hc2 : (s.drop (k + 2)).count '$' ≤ (s.take k ++ d ++ s.drop (k + 2)).count '$' := by
        simp only [List.count_append]; omega
      have hfin2 : (p ++ s.take k ++ d ++ replaceMarker d (s.drop (k + 2))).length
          < MAXINPUT := by
        rw [hrep] at hfin; simpa [List.append_assoc] using hfin
      have hlen2 : (p ++ s.take k ++ d ++ s.drop (k + 2)).length < MAXINPUT := by
        by_cases h2 : 2 ≤ d.length
        · have := length_le_replaceMarker d h2 (s.drop (k + 2))
          simp only [List.length_append] at hfin2 this ⊢
          omega
        · simp only [List.length_append, List.length_take, List.length_drop] at hlen ⊢
          omega
      have hp2 : ∀ x, strstr ((p ++ s.take k ++ d) ++ x) marker
          = (strstr x marker).map (· + (p ++ s.take k ++ d).length) := by
        intro x
        have := strstr_take_append hk d x hd
        rw [show (p ++ s.take k ++ d) ++ x = p ++ (s.take k ++ d ++ x) by simp, hp, this]
        cases strstr x marker with
        | none => rfl
        | some j =>
          simp only [Option.map_some', List.length_append, List.length_take, Option.some.injEq]
          omega
      have hih := ih (s.drop (k + 2)) (p ++ s.take k ++ d) hp2 (by omega)
        (by simpa [List.append_assoc] using hlen2) (by simpa [List.append_assoc] using hfin2)
      have htrunc : ((p ++ s.take k) ++ d ++ s.drop (k + 2)).take (MAXINPUT - 1)
          = (p ++ s.take k ++ d) ++ s.drop (k + 2) := by
        apply List.take_of_length_le
        simp only [MAXINPUT] at hlen2 ⊢
        omega
      simp only [expandLoop, h1, htake, hdrop, htrunc, hih, hrep]
      simp

theorem replaceMarker_replicate_length (d : CStr) (n : Nat) :
    (replaceMarker d (List.replicate (2 * n) '$')).length = n * d.length := by
  induction n with
  | zero => simp [replaceMarker]
  | succ n ih =>
    have : List.replicate (2 * (n + 1)) '$' = '$' :: '$' :: List.replicate (2 * n) '$' := by
      rw [show 2 * (n + 1) = 2 * n + 1 + 1 by ring]; rfl
    rw [this, replaceMarker_marker, List.length_append, ih]
    ring

/-! ## The tokens of a line -/

theorem spaceFreeRuns_nil : spaceFreeRuns [] = [] := by
  simp [spaceFreeRuns]

theorem spaceFreeRuns_cons_space (b : CStr) : spaceFreeRuns (' ' :: b) = spaceFreeRuns b := by
  simp [spaceFreeRuns, List.splitOn]

theorem spaceFreeRuns_dropWhile (buf : CStr) :
    spaceFreeRuns (buf.dropWhile (· == ' ')) = spaceFreeRuns buf := by
  induction buf with
  | nil => rfl
  | cons c b ih =>
    by_cases hc : c = ' '
    · subst hc
      rw [spaceFreeRuns_cons_space, ← ih]
      simp [List.dropWhile]
    · have : (c == ' ') = false := by simpa using hc
      simp [List.dropWhile, this]

/-- The first token of a string that does not start with a space. -/
theorem spaceFreeRuns_token (s : CStr) (hne : s ≠ []) (hh : s.head? ≠ some ' ') :
    s.takeWhile (· != ' ') ≠ [] ∧
    spaceFreeRuns s
      = s.takeWhile (· != ' ') :: spaceFreeRuns ((s.dropWhile (· != ' ')).drop 1) := by
  have ht : s.takeWhile (· != ' ') ≠ [] := by
    cases s with
    | nil => exact absurd rfl hne
    | cons c b =>
      have hc : (c != ' ') = true := by
        have : c ≠ ' ' := fun h => hh (by simp [h])
        simpa using this
      simp [List.takeWhile, hc]
  refine ⟨ht, ?_⟩
  have hclean : ∀ x ∈ s.takeWhile (· != ' '), ¬ ((x == ' ') = true) := by
    intro x hx
    have := List.mem_takeWhile_imp hx
    simpa using this
  have hsplit : s = s.takeWhile (· != ' ') ++ s.dropWhile (· != ' ') :=
    (List.takeWhile_append_dropWhile _ _).symm
  cases hr : s.dropWhile (· != ' ') with
  | nil =>
    rw [hr, List.append_nil] at hsplit
    have hclean2 : ∀ x ∈ s, ¬ ((x == ' ') = true) := by
      intro x hx
      exact hclean x (by rw [← hsplit]; exact hx)
    have h1 : s.splitOn ' ' = [s] := List.splitOnP_eq_single _ _ hclean2
    rw [← hsplit]
    simp [spaceFreeRuns, h1, hne]
  | cons x r =>
    have hx : x = ' ' := by
      have := List.head_dropWhile_not (· != ' ') s (by rw [hr]; simp)
      simp only [hr, List.head_cons] at this
      simpa using this
    subst hx
    rw [hr] at hsplit
    have h1 : s.splitOn ' ' = s.takeWhile (· != ' ') :: r.splitOn ' ' := by
      conv_lhs => rw [hsplit]
      exact List.splitOnP_first _ _ hclean ' ' (by simp) r
    simp [spaceFreeRuns, h1, ht]

/-- When `strtok` returns `NULL` the rest of the line has no token. -/
theorem strtok_none {buf : CStr} (h : strtok buf = none) : spaceFreeRuns buf = [] := by
  unfold strtok at h
  simp only at h
  split at h
  · rename_i hs
    rw [← spaceFreeRuns_dropWhile, hs, spaceFreeRuns_nil]
  · cases h

/-- A token returned by `strtok` is the first maximal space-free substring of the rest of the
line, and the scan moves forward. -/
theorem strtok_some {buf t rest : CStr} (h : strtok buf = some (t, rest)) :
    spaceFreeRuns buf = t :: spaceFreeRuns rest ∧ rest.length < buf.length := by
  unfold strtok at h
  simp only at h
  split at h
  · cases h
  · rename_i hs
    simp only [Option.some.injEq, Prod.mk.injEq] at h
    obtain ⟨h1, h2⟩ := h
    have hh : (buf.dropWhile (· == ' ')).head? ≠ some ' ' := by
      intro hc
      cases hd : buf.dropWhile (· == ' ') with
      | nil => exact hs hd
      | cons x r =>
        have := List.head_dropWhile_not (· == ' ') buf (by rw [hd]; simp)
        simp only [hd, List.head_cons] at this
        rw [hd] at hc
        simp at hc this
        exact this hc
    obtain ⟨hne, hsfr⟩ := spaceFreeRuns_token _ hs hh
    rw [h1, h2, spaceFreeRuns_dropWhile] at hsfr
    refine ⟨hsfr, ?_⟩
    have hl1 : (buf.dropWhile (· == ' ')).length ≤ buf.length :=
      (List.dropWhile_sublist _).length_le
    have hl2 := congrArg List.length
      (List.takeWhile_append_dropWhile (· != ' ') (buf.dropWhile (· == ' ')))
    rw [h1, List.length_append] at hl2
    have hl3 : 0 < t.length := List.length_pos.2 (h1 ▸ hne)
    rw [← h2, List.length_drop]
    omega

/-! ## The parse loop -/

theorem splitRedirects_in (path : CStr) (R : List CStr) :
    splitRedirects (['<'] :: path :: R)
      = (splitRedirects R).map fun p => { p with ins := path :: p.ins } := by
  simp [splitRedirects]

theorem splitRedirects_out (path : CStr) (R : List CStr) :
    splitRedirects (['>'] :: path :: R)
      = (splitRedirects R).map fun p => { p with outs := path :: p.outs } := by
  simp [splitRedirects]

theorem splitRedirects_arg (t : CStr) (R : List CStr) (h1 : t ≠ ['<']) (h2 : t ≠ ['>']) :
    splitRedirects (t :: R)
      = (splitRedirects R).map fun p => { p with args := t :: p.args } := by
  cases R with
  | nil => simp [splitRedirects, h1, h2]
  | cons path R => simp [splitRedirects, h1, h2]

theorem getLast?_cons_getD {α : Type} (x y : α) (l : List α) :
    (x :: l).getLast?.getD y = l.getLast?.getD x := by
  cases l with
  | nil => rfl
  | cons b l =>
    rw [List.getLast?_cons_cons, List.getLast?_eq_getLast _ (List.cons_ne_nil b l)]
    rfl

theorem take_set_succ {α : Type} (l : List α) (i : Nat) (x : α) (h : i < l.length) :
    (l.set i x).take (i + 1) = l.take i ++ [x] := by
  rw [List.set_eq_take_append_cons_drop, if_pos h]
  have hl : (l.take i).length = i := by simp [Nat.le_of_lt h]
  have : l.take i ++ x :: l.drop (i + 1) = (l.take i ++ [x]) ++ l.drop (i + 1) := by simp
  rw [this]
  exact List.take_left' (by simp [hl])

theorem drop_set_succ {α : Type} (l : List α) (i n : Nat) (x : α) :
    (l.set i x).drop (i + 1 + n) = l.drop (i + 1 + n) :=
  List.drop_set_of_lt x l (by omega)

theorem stored_nil (st : Bufs) : stored st { args := [], ins := [], outs := [] } [] = st := by
  cases st
  simp [stored]

/-- The parse loop on the rest `buf` of a well-formed line: every redirection operator has a
path that fits its buffer and the arguments fit the array.  The loop then reaches the check for
`&` with the paths and the expanded arguments stored. -/
theorem parseLoop_wellFormed (pid : Int) (fuel : Nat) (buf : CStr) (st : Bufs) (p : Parsed)
    (A : List CStr) (hfuel : buf.length < fuel)
    (hp : splitRedirects (spaceFreeRuns buf) = some p)
    (hin : ∀ f ∈ p.ins, f.length < PATHSIZE) (hout : ∀ f ∈ p.outs, f.length < PATHSIZE)
    (hA : List.Forall₂ (fun t a => expandToken pid t = some a) p.args A)
    (hlen : st.args.length = MAXARGS) (hmax : st.argc + A.length ≤ MAXARGS) :
    parseLoop pid fuel buf st.argc st = checkBackground (stored st p A) := by
  induction fuel generalizing buf st p A with
  | zero => omega
  | succ fuel ih =>
    have hargc : ¬ st.argc > 512 := by simp only [MAXARGS] at hmax; omega
    cases htok : strtok buf with
    | none =>
      rw [strtok_none htok] at hp
      simp only [splitRedirects, Option.some.injEq] at hp
      subst hp
      cases hA
      simp [parseLoop, htok, stored_nil]
    | some tr =>
      obtain ⟨token, rest⟩ := tr
      obtain ⟨hsfr, hrest⟩ := strtok_some htok
      rw [hsfr] at hp
      by_cases hlt : token = ['<']
      · subst hlt
        cases htok2 : strtok rest with
        | none =>
          rw [strtok_none htok2] at hp
          simp [splitRedirects] at hp
        | some pr =>
          obtain ⟨path, rest2⟩ := pr
          obtain ⟨hsfr2, hrest2⟩ := strtok_some htok2
          rw [hsfr2, splitRedirects_in] at hp
          cases hp2 : splitRedirects (spaceFreeRuns rest2) with
          | none => simp [hp2] at hp
          | some p2 =>
            simp only [hp2, Option.map_some', Option.some.injEq] at hp
            subst hp
            have hfit : pathFits path = true := by
              simpa [pathFits] using hin path (by simp)
            have := ih rest2 { st with inFile := path } p2 A (by omega) hp2
              (fun f hf => hin f (by simp [hf])) hout hA hlen hmax
            simp only [parseLoop, htok, htok2, hargc, hfit, if_true, if_false]
            rw [this]
            simp [stored, getLast?_cons_getD]
      · by_cases hgt : token = ['>']
        · subst hgt
          cases htok2 : strtok rest with
          | none =>
            rw [strtok_none htok2] at hp
            simp [splitRedirects] at hp
          | some pr =>
            obtain ⟨path, rest2⟩ := pr
            obtain ⟨hsfr2, hrest2⟩ := strtok_some htok2
            rw [hsfr2, splitRedirects_out] at hp
            cases hp2 : splitRedirects (spaceFreeRuns rest2) with
            | none => simp [hp2] at hp
            | some p2 =>
              simp only [hp2, Option.map_some', Option.some.injEq] at hp
              subst hp
              have hfit : pathFits path = true := by
                simpa [pathFits] using hout path (by simp)
              have := ih rest2 { st with outFile := path } p2 A (by omega) hp2
                hin (fun f hf => hout f (by simp [hf])) hA hlen hmax
              simp only [parseLoop, htok, htok2, hargc, hlt, hfit, if_true, if_false]
              rw [this]
              simp [stored, getLast?_cons_getD]
        · rw [splitRedirects_arg _ _ hlt hgt] at hp
          cases hp2 : splitRedirects (spaceFreeRuns rest) with
          | none => simp [hp2] at hp
          | some p2 =>
            simp only [hp2, Option.map_some', Option.some.injEq] at hp
            subst hp
            cases hA with
            | cons ha hA2 =>
              rename_i a A2
              simp only [List.length_cons] at hmax
              have hi : st.argc < MAXARGS := by omega
              have := ih rest { st with args := st.args.set st.argc (some a),
                                        argc := st.argc + 1 } p2 A2 (by omega) hp2
                hin hout hA2 (by simpa using hlen) (by simp only []; omega)
              simp only [parseLoop, htok, hargc, hlt, hgt, ha, hi, if_true, if_false]
              rw [this]
              congr 1
              simp only [stored, List.length_cons, List.map_cons]
              rw [take_set_succ _ _ _ (by omega), drop_set_succ]
              simp [Nat.add_assoc, Nat.add_comm 1]

/-- The converse: when the parse loop ends with `return 0`, the rest of the line was well
formed. -/
theorem parseLoop_ret_zero (pid : Int) (fuel : Nat) (buf : CStr) (st st2 : Bufs)
    (hfuel : buf.length < fuel) (hargc : st.argc ≤ MAXARGS)
    (h : parseLoop pid fuel buf st.argc st = .ret 0 st2) :
    ∃ p A, splitRedirects (spaceFreeRuns buf) = some p ∧
      (∀ f ∈ p.ins, f.length < PATHSIZE) ∧ (∀ f ∈ p.outs, f.length < PATHSIZE) ∧
      List.Forall₂ (fun t a => expandToken pid t = some a) p.args A ∧
      st.argc + A.length ≤ MAXARGS := by
  induction fuel generalizing buf st with
  | zero => omega
  | succ fuel ih =>
    have hargc2 : ¬ st.argc > 512 := by simp only [MAXARGS] at hargc; omega
    cases htok : strtok buf with
    | none =>
      refine ⟨{ args := [], ins := [], outs := [] }, [], ?_, by simp, by simp,
        List.Forall₂.nil, by simpa using hargc⟩
      rw [strtok_none htok]; rfl
    | some tr =>
      obtain ⟨token, rest⟩ := tr
      obtain ⟨hsfr, hrest⟩ := strtok_some htok
      rw [hsfr]
      by_cases hlt : token = ['<']
      · subst hlt
        cases htok2 : strtok rest with
        | none => simp [parseLoop, htok, htok2, hargc2] at h
        | some pr =>
          obtain ⟨path, rest2⟩ := pr
          obtain ⟨hsfr2, hrest2⟩ := strtok_some htok2
          by_cases hfit : pathFits path = true
          · simp only [parseLoop, htok, htok2, hargc2, hfit, if_true, if_false] at h
            obtain ⟨p2, A, h1, h2, h3, h4, h5⟩ :=
              ih rest2 { st with inFile := path } (by omega) hargc h
            refine ⟨{ p2 with ins := path :: p2.ins }, A, ?_, ?_, h3, h4, h5⟩
            · rw [hsfr2, splitRedirects_in, h1]; rfl
            · intro f hf
              simp only [List.mem_cons] at hf
              rcases hf with hf | hf
              · subst hf; simpa [pathFits] using hfit
              · exact h2 f hf
          · simp [parseLoop, htok, htok2, hargc2, hfit] at h
      · by_cases hgt : token = ['>']
        · subst hgt
          cases htok2 : strtok rest with
          | none => simp [parseLoop, htok, htok2, hargc2] at h
          | some pr =>
            obtain ⟨path, rest2⟩ := pr
            obtain ⟨hsfr2, hrest2⟩ := strtok_some htok2
            by_cases hfit : pathFits path = true
            · simp only [parseLoop, htok, htok2, hargc2, hlt, hfit, if_true, if_false] at h
              obtain ⟨p2, A, h1, h2, h3, h4, h5⟩ :=
                ih rest2 { st with outFile := path } (by omega) hargc h
              refine ⟨{ p2 with outs := path :: p2.outs }, A, ?_, h2, ?_, h4, h5⟩
              · rw [hsfr2, splitRedirects_out, h1]; rfl
              · intro f hf
                simp only [List.mem_cons] at hf
                rcases hf with hf | hf
                · subst hf; simpa [pathFits] using hfit
                · exact h3 f hf
            · simp [parseLoop, htok, htok2, hargc2, hfit] at h
        · obtain ⟨a, ha, _, _⟩ := expandToken_total pid token
          by_cases hi : st.argc < MAXARGS
          · simp only [parseLoop, htok, hargc2, hlt, hgt, ha, hi, if_true, if_false] at h
            obtain ⟨p2, A, h1, h2, h3, h4, h5⟩ :=
              ih rest { st with args := st.args.set st.argc (some a), argc := st.argc + 1 }
                (by omega) (by simp only []; omega) h
            refine ⟨{ p2 with args := token :: p2.args }, a :: A, ?_, h2, h3,
              List.Forall₂.cons ha h4, ?_⟩
            · rw [splitRedirects_arg _ _ hlt hgt, h1]; rfl
            · simp only [List.length_cons] at h5 ⊢; omega
          · simp [parseLoop, htok, hargc2, hlt, hgt, ha, hi] at h

theorem checkBackground_ne_outOfFuel (st : Bufs) : checkBackground st ≠ .outOfFuel := by
  unfold checkBackground
  repeat' split
  all_goals simp

/-- The fuel given to the parse loop is enough: a round consumes at least one character. -/
theorem parseLoop_ne_outOfFuel (pid : Int) (fuel : Nat) (buf : CStr) (i : Nat) (st : Bufs)
    (hfuel : buf.length < fuel) : parseLoop pid fuel buf i st ≠ .outOfFuel := by
  induction fuel generalizing buf i st with
  | zero => omega
  | succ fuel ih =>
    cases htok : strtok buf with
    | none => simpa [parseLoop, htok] using checkBackground_ne_outOfFuel st
    | some tr =>
      obtain ⟨token, rest⟩ := tr
      obtain ⟨_, hrest⟩ := strtok_some htok
      by_cases hargc : st.argc > 512
      · simp [parseLoop, htok, hargc]
      by_cases hlt : token = ['<']
      · cases htok2 : strtok rest with
        | none => simp [parseLoop, htok, htok2, hargc, hlt]
        | some pr =>
          obtain ⟨path, rest2⟩ := pr
          obtain ⟨_, hrest2⟩ := strtok_some htok2
          by_cases hfit : pathFits path = true
          · simpa [parseLoop, htok, htok2, hargc, hlt, hfit] using ih rest2 i _ (by omega)
          · simp [parseLoop, htok, htok2, hargc, hlt, hfit]
      by_cases hgt : token = ['>']
      · cases htok2 : strtok rest with
        | none => simp [parseLoop, htok, htok2, hargc, hlt, hgt]
        | some pr =>
          obtain ⟨path, rest2⟩ := pr
          obtain ⟨_, hrest2⟩ := strtok_some htok2
          by_cases hfit : pathFits path = true
          · simpa [parseLoop, htok, htok2, hargc, hlt, hgt, hfit] using ih rest2 i _ (by omega)
          · simp [parseLoop, htok, htok2, hargc, hlt, hgt, hfit]
      obtain ⟨a, ha, _, _⟩ := expandToken_total pid token
      by_cases hi : i < MAXARGS
      · simpa [parseLoop, htok, hargc, hlt, hgt, ha, hi] using ih rest (i + 1) _ (by omega)
      · simp [parseLoop, htok, hargc, hlt, hgt, ha, hi]

/-- The model of `promptCommand` never runs out of fuel: every run returns or reaches
undefined behaviour. -/
theorem promptCommand_ne_outOfFuel (input : CStr) (pid : Int) (st : Bufs) :
    promptCommand input pid st ≠ .outOfFuel := by
  unfold promptCommand
  split
  · simp
  · split
    · simp
    · exact parseLoop_ne_outOfFuel pid _ input 0 _ (Nat.lt_succ_self _)

/-- The check for `&` after the loop has stored at least one argument. -/
theorem checkBackground_stored (st : Bufs) (p : Parsed) (B : List CStr) (a : CStr) :
    checkBackground (stored { st with argc := 0 } p (B ++ [a])) =
      if a = ['&'] then
        .ret 0 { stored { st with argc := 0 } p (B ++ [a]) with
                  background := 1,
                  args := B.map some ++ none :: st.args.drop (B.length + 1) }
      else .ret 0 (stored { st with argc := 0 } p (B ++ [a])) := by
  have hget : (List.map some B ++ some a :: List.drop (B.length + 1) st.args).get? B.length
      = some (some a) := by
    rw [List.get?_eq_getElem?, List.getElem?_append_right (by simp)]
    simp
  have hset : (List.map some B ++ some a :: List.drop (B.length + 1) st.args).set B.length none
      = List.map some B ++ none :: List.drop (B.length + 1) st.args := by
    rw [List.set_append_right _ _ (by simp)]
    simp
  simp only [checkBackground, stored, List.length_append, List.length_cons, List.length_nil,
    Nat.zero_add, List.take_zero, List.nil_append, List.map_append, List.map_cons, List.map_nil,
    List.append_assoc, List.singleton_append, Nat.add_one_ne_zero, if_false,
    Nat.add_sub_cancel, hget, hset]

theorem argv_map_some (X : List CStr) (rest : List (Option CStr)) :
    argv (X.map some ++ none :: rest) = X := by
  induction X with
  | nil => simp [argv]
  | cons x X ih => simp [argv, ih]

/-- A round of the expansion loop that starts from a string with a marker ends in a string
cut from some `pre ++ d ++ rest`. -/
theorem expandLoop_last_round (d : CStr) (fuel : Nat) (tmp r : CStr) (k : Nat)
    (hk : strstr tmp marker = some k) (h : expandLoop d fuel tmp = some r) :
    ∃ pre rest, r = (pre ++ d ++ rest).take (MAXINPUT - 1) := by
  induction fuel generalizing tmp k with
  | zero => simp [expandLoop] at h
  | succ f ih =>
    simp only [expandLoop, hk] at h
    cases hk2 : strstr ((tmp.take k ++ d ++ tmp.drop (k + 2)).take (MAXINPUT - 1)) marker with
    | none =>
      cases f with
      | zero => simp [expandLoop] at h
      | succ f2 =>
        simp only [expandLoop, hk2, Option.some.injEq] at h
        exact ⟨_, _, h.symm⟩
    | some k2 => exact ih _ k2 hk2 h

/-- The stored string is `&` exactly for the token `&`. -/
theorem expandToken_eq_amp (pid : Int) (t : CStr) :
    expandToken pid t = some ['&'] ↔ t = ['&'] := by
  constructor
  · intro h
    cases hk : strstr t marker with
    | none => simpa [expandToken, hk] using h
    | some k =>
      simp only [expandToken, hk] at h
      obtain ⟨pre, rest, hr⟩ := expandLoop_last_round _ _ _ _ k hk h
      exfalso
      have hl := congrArg List.length hr
      simp only [List.length_take, List.length_cons, List.length_nil, MAXINPUT] at hl
      have hfull : (pre ++ fmtInt pid ++ rest).take (MAXINPUT - 1) = pre ++ fmtInt pid ++ rest :=
        List.take_of_length_le (by simp only [MAXINPUT]; omega)
      rw [hfull] at hr
      have hmem : ∀ c ∈ fmtInt pid, c = '&' := by
        intro c hc
        have : c ∈ pre ++ fmtInt pid ++ rest := by simp [hc]
        rw [← hr] at this
        simpa using this
      cases hd : fmtInt pid with
      | nil => exact fmtInt_ne_nil pid hd
      | cons c cs =>
        have hc := hmem c (by rw [hd]; simp)
        exact fmtInt_noAmp pid (by rw [hd, hc]; simp)
  · rintro rfl
    rfl

/-- Every token list has its list of stored strings. -/
theorem expandAll_exists (pid : Int) (T : List CStr) :
    ∃ A, List.Forall₂ (fun t a => expandToken pid t = some a) T A := by
  induction T with
  | nil => exact ⟨[], List.Forall₂.nil⟩
  | cons t T ih =>
    obtain ⟨A, hA⟩ := ih
    obtain ⟨a, ha, _, _⟩ := expandToken_total pid t
    exact ⟨a :: A, List.Forall₂.cons ha hA⟩

theorem forall₂_getLast_amp (pid : Int) (T A : List CStr)
    (h : List.Forall₂ (fun t a => expandToken pid t = some a) T A) :
    T.getLast? = some ['&'] ↔ A.getLast? = some ['&'] := by
  induction h with
  | nil => simp
  | cons ha _ ih =>
    rename_i t a T2 A2 hrest
    cases hrest with
    | nil =>
      simp only [List.getLast?_singleton, Option.some.injEq]
      rw [← expandToken_eq_amp pid t, ha, Option.some.injEq]
    | cons hb hrest2 => simpa [List.getLast?_cons_cons] using ih

theorem splitRedirects_args_mem (toks : List CStr) (p : Parsed)
    (h : splitRedirects toks = some p) :
    ∀ t ∈ p.args, t ∈ toks ∧ t ≠ ['<'] ∧ t ≠ ['>'] := by
  obtain ⟨n, hn⟩ : ∃ n, toks.length = n := ⟨_, rfl⟩
  induction n using Nat.strong_induction_on generalizing toks p with
  | _ n ih =>
    cases toks with
    | nil =>
      simp only [splitRedirects, Option.some.injEq] at h
      subst h; simp
    | cons t R =>
      by_cases hlt : t = ['<']
      · subst hlt
        cases R with
        | nil => simp [splitRedirects] at h
        | cons path R2 =>
          rw [splitRedirects_in] at h
          cases h2 : splitRedirects R2 with
          | none => simp [h2] at h
          | some p2 =>
            simp only [h2, Option.map_some', Option.some.injEq] at h
            subst h
            intro x hx
            have := ih R2.length (by simp at hn; omega) R2 p2 h2 rfl x hx
            exact ⟨by simp [this.1], this.2⟩
      · by_cases hgt : t = ['>']
        · subst hgt
          cases R with
          | nil => simp [splitRedirects] at h
          | cons path R2 =>
            rw [splitRedirects_out] at h
            cases h2 : splitRedirects R2 with
            | none => simp [h2] at h
            | some p2 =>
              simp only [h2, Option.map_some', Option.some.injEq] at h
              subst h
              intro x hx
              have := ih R2.length (by simp at hn; omega) R2 p2 h2 rfl x hx
              exact ⟨by simp [this.1], this.2⟩
        · rw [splitRedirects_arg _ _ hlt hgt] at h
          cases h2 : splitRedirects R with
          | none => simp [h2] at h
          | some p2 =>
            simp only [h2, Option.map_some', Option.some.injEq] at h
            subst h
            intro x hx
            simp only [List.mem_cons] at hx
            rcases hx with hx | hx
            · subst hx; exact ⟨by simp, hlt, hgt⟩
            · have := ih R.length (by simp at hn; omega) R p2 h2 rfl x hx
              exact ⟨by simp [this.1], this.2⟩

/-- On a line that is not skipped and is well formed, `promptCommand` is the parse loop followed
by the check for `&`. -/
theorem promptCommand_wellFormed (input : CStr) (pid : Int) (st : Bufs) (p : Parsed)
    (A : List CStr) (hst : st.args.length = MAXARGS)
    (hskip : input ≠ [] ∧ input.head? ≠ some '#' ∧ input.head? ≠ some ' ')
    (hlen : input.length ≤ MAXINPUT)
    (hp : splitRedirects (spaceFreeRuns input) = some p)
    (hin : ∀ f ∈ p.ins, f.length < PATHSIZE) (hout : ∀ f ∈ p.outs, f.length < PATHSIZE)
    (hA : List.Forall₂ (fun t a => expandToken pid t = some a) p.args A)
    (hmax : A.length ≤ MAXARGS) :
    promptCommand input pid st = checkBackground (stored { st with argc := 0 } p A) := by
  have h1 : ¬ (input.head? = some '#' ∨ input = [] ∨ input.head? = some ' ') := by
    rintro (h | h | h)
    · exact hskip.2.1 h
    · exact hskip.1 h
    · exact hskip.2.2 h
  have h2 : ¬ input.length > MAXINPUT := by omega
  simp only [promptCommand, h1, h2, if_false]
  exact parseLoop_wellFormed pid (input.length + 1) input { st with argc := 0 } p A
    (Nat.lt_succ_self _) hp hin hout hA hst (by simpa using hmax)

/-- What the caller sees after `promptCommand` on a well-formed line with the expanded
arguments `A`. -/
theorem promptCommand_result (input : CStr) (pid : Int) (st : Bufs) (p : Parsed)
    (A : List CStr) (hst : st.args.length = MAXARGS)
    (hskip : input ≠ [] ∧ input.head? ≠ some '#' ∧ input.head? ≠ some ' ')
    (hlen : input.length ≤ MAXINPUT)
    (hp : splitRedirects (spaceFreeRuns input) = some p)
    (hin : ∀ f ∈ p.ins, f.length < PATHSIZE) (hout : ∀ f ∈ p.outs, f.length < PATHSIZE)
    (hA : List.Forall₂ (fun t a => expandToken pid t = some a) p.args A)
    (hne : A ≠ []) (hmax : A.length ≤ MAXARGS) :
    ∃ st2, promptCommand input pid st = .ret 0 st2 ∧
      st2.argc = A.length ∧
      st2.args.drop A.length = st.args.drop A.length ∧
      st2.inFile = p.ins.getLast?.getD st.inFile ∧
      st2.outFile = p.outs.getLast?.getD st.outFile ∧
      (A.getLast? = some ['&'] →
        st2.background = 1 ∧ st2.args.take A.length = A.dropLast.map some ++ [none]) ∧
      (A.getLast? ≠ some ['&'] →
        st2.background = st.background ∧ st2.args.take A.length = A.map some) := by
  rw [promptCommand_wellFormed input pid st p A hst hskip hlen hp hin hout hA hmax]
  obtain ⟨B, a, rfl⟩ : ∃ B a, A = B ++ [a] :=
    ⟨A.dropLast, A.getLast hne, (List.dropLast_concat_getLast hne).symm⟩
  rw [checkBackground_stored]
  have hdrop : ∀ (x : Option CStr),
      (List.map some B ++ x :: List.drop (B.length + 1) st.args).drop (B.length + 1)
        = List.drop (B.length + 1) st.args := by
    intro x
    have : List.map some B ++ x :: List.drop (B.length + 1) st.args
        = (List.map some B ++ [x]) ++ List.drop (B.length + 1) st.args := by simp
    rw [this]
    exact List.drop_left' (by simp)
  have htake : ∀ (x : Option CStr),
      (List.map some B ++ x :: List.drop (B.length + 1) st.args).take (B.length + 1)
        = List.map some B ++ [x] := by
    intro x
    have : List.map some B ++ x :: List.drop (B.length + 1) st.args
        = (List.map some B ++ [x]) ++ List.drop (B.length + 1) st.args := by simp
    rw [this]
    exact List.take_left' (by simp)
  by_cases ha : a = ['&']
  · subst ha
    refine ⟨_, by rw [if_pos rfl], ?_, ?_, rfl, rfl, ?_, ?_⟩
    · simp [stored]
    · simpa using hdrop none
    · intro _
      refine ⟨rfl, ?_⟩
      simpa using htake none
    · intro h; simp at h
  · refine ⟨_, by rw [if_neg ha], ?_, ?_, rfl, rfl, ?_, ?_⟩
    · simp [stored]
    · simpa [stored] using hdrop (some a)
    · intro h; simp at h; exact absurd h ha
    · intro _
      refine ⟨rfl, ?_⟩
      simpa [stored] using htake (some a)

/-! ## The `$$` expansion -/

/-- C2 (amended): for every argument token and every process identifier the expansion loop of
`promptCommand` terminates and stores a string without `$$`, which a second expansion leaves
as it is; and whenever the token and its full expansion fit the `MAXINPUT - 1` characters that
`snprintf` keeps, the stored string is the token with every `$$`, found left to right and not
overlapping, replaced by the decimal pid, all other characters in place. -/
theorem expandToken_replaces_markers (pid : Int) (token : CStr) :
    ∃ r, expandToken pid token = some r ∧ strstr r marker = none ∧
      expandToken pid r = some r ∧
      (token.length < MAXINPUT → (replaceMarker (fmtInt pid) token).length < MAXINPUT →
        r = replaceMarker (fmtInt pid) token) := by
  obtain ⟨r, hr, hn, _⟩ := expandToken_total pid token
  refine ⟨r, hr, hn, expandToken_of_strstr_none pid hn, fun h1 h2 => ?_⟩
  cases hk : strstr token marker with
  | none =>
    rw [replaceMarker_of_strstr_none _ hk]
    simpa [expandToken, hk] using hr.symm
  | some k =>
    have := expandLoop_exact (fmtInt pid) (fmtInt_noDollar pid) (token.length + 1) token []
      (fun x => by simp) (Nat.lt_succ_of_le (List.count_le_length _ _)) (by simpa using h1)
      (by simpa using h2)
    simp only [expandToken, hk, List.nil_append] at hr this
    rw [this] at hr
    exact (Option.some.inj hr).symm

/-- The expansion of `a$$b$$` for pid 1234. -/
theorem expandToken_replaces_markers_witness :
    expandToken 1234 "a$$b$$".toList = some "a1234b1234".toList := by
  obtain ⟨r, h1, _, _, h4⟩ := expandToken_replaces_markers 1234 "a$$b$$".toList
  rw [h1, h4 (by decide) (by decide)]
  decide

/-- C2 as stated fails: the token of a thousand `$$` fits the input buffer, its full expansion
for pid 12345 has 5000 characters, and the stored string has fewer than `MAXINPUT`. -/
theorem expandToken_truncates :
    longToken.length < MAXINPUT ∧
    ∃ r, expandToken 12345 longToken = some r ∧ r ≠ replaceMarker (fmtInt 12345) longToken := by
  have hl : longToken.length < MAXINPUT := by
    rw [longToken, List.length_replicate]; decide
  obtain ⟨r, hr, _, hlen⟩ := expandToken_total 12345 longToken
  refine ⟨hl, r, hr, fun h => ?_⟩
  have h1 := hlen hl
  have h2 : (replaceMarker (fmtInt 12345) longToken).length = 1000 * (fmtInt 12345).length :=
    replaceMarker_replicate_length (fmtInt 12345) 1000
  have h3 : (fmtInt 12345).length = 5 := by decide
  rw [h, h2, h3] at h1
  simp [MAXINPUT] at h1

/-! ## The parser -/

theorem initBufs_args_length : initBufs.args.length = MAXARGS :=
  List.length_replicate _ _

/-- C1 (amended): for every input line that is not skipped, has at least one and at most 512
argument tokens, and in which every `<` or `>` operator is followed by a token of at most 255
characters (an operator consumes the next token, whatever it is), `promptCommand` returns 0
and the first slots of `args` hold, in their order in the line, the maximal space-free
substrings that are neither an operator nor the token consumed by one, each with `$$`
expanded, except that a last argument `&` leaves a null pointer in its slot; no argument is
empty; the token consumed by the last `<` is in `inFile`, the one consumed by the last `>`
in `outFile` (a stream without operator keeps its buffer). -/
theorem promptCommand_parses (input : CStr) (pid : Int) (st : Bufs) (p : Parsed)
    (hst : st.args.length = MAXARGS)
    (hskip : input ≠ [] ∧ input.head? ≠ some '#' ∧ input.head? ≠ some ' ')
    (hlen : input.length ≤ MAXINPUT)
    (hp : splitRedirects (spaceFreeRuns input) = some p)
    (hin : ∀ f ∈ p.ins, f.length < PATHSIZE) (hout : ∀ f ∈ p.outs, f.length < PATHSIZE)
    (hne : p.args ≠ []) (hmax : p.args.length ≤ MAXARGS) :
    ∃ A st2, List.Forall₂ (fun t a => expandToken pid t = some a) p.args A ∧
      promptCommand input pid st = .ret 0 st2 ∧
      st2.args.take A.length
        = (if A.getLast? = some ['&'] then A.dropLast.map some ++ [none] else A.map some) ∧
      st2.inFile = p.ins.getLast?.getD st.inFile ∧
      st2.outFile = p.outs.getLast?.getD st.outFile ∧
      (∀ t ∈ p.args, t ∈ spaceFreeRuns input ∧ t ≠ [] ∧ t ≠ ['<'] ∧ t ≠ ['>']) := by
  obtain ⟨A, hA⟩ := expandAll_exists pid p.args
  have hl := hA.length_eq
  have hne2 : A ≠ [] := by
    intro h0
    rw [h0] at hl
    exact hne (List.length_eq_zero.1 hl)
  obtain ⟨st2, h1, _, _, h4, h5, h6, h7⟩ := promptCommand_result input pid st p A hst hskip
    hlen hp hin hout hA hne2 (by omega)
  refine ⟨A, st2, hA, h1, ?_, h4, h5, ?_⟩
  · by_cases ha : A.getLast? = some ['&']
    · rw [if_pos ha]; exact (h6 ha).2
    · rw [if_neg ha]; exact (h7 ha).2
  · intro t ht
    obtain ⟨hm, h8, h9⟩ := splitRedirects_args_mem _ p hp t ht
    refine ⟨hm, ?_, h8, h9⟩
    have := (List.mem_filter.1 hm).2
    simpa using this

/-- The line `echo $$ > out` with pid 1234. -/
theorem promptCommand_parses_witness :
    ∃ st2, promptCommand "echo $$ > out".toList 1234 initBufs = .ret 0 st2 ∧
      st2.args.take 2 = [some "echo".toList, some "1234".toList] ∧
      st2.inFile = [] ∧ st2.outFile = "out".toList := by
  obtain ⟨A, st2, hA, h1, h2, h3, h4, _⟩ :=
    promptCommand_parses "echo $$ > out".toList 1234 initBufs
      { args := ["echo".toList, "$$".toList], ins := [], outs := ["out".toList] }
      initBufs_args_length (by decide) (by decide) (by decide) (by decide) (by decide)
      (by decide) (by decide)
  have hA2 : A = ["echo".toList, "1234".toList] := by
    cases hA with
    | cons ha hA1 =>
      cases hA1 with
      | cons hb hA2 =>
        cases hA2
        have e1 : expandToken 1234 "echo".toList = some "echo".toList := by decide
        have e2 : expandToken 1234 "$$".toList = some "1234".toList := by decide
        rw [e1] at ha
        rw [e2] at hb
        cases ha
        cases hb
        rfl
  subst hA2
  exact ⟨st2, h1, h2, h3, h4⟩

/-- C1 as stated fails on `ls &`: both tokens are argument tokens, `promptCommand` returns 0,
and the slot of the second one holds a null pointer, not `&`. -/
theorem promptCommand_amp_slot_null :
    splitRedirects (spaceFreeRuns "ls &".toList)
      = some { args := ["ls".toList, "&".toList], ins := [], outs := [] } ∧
    ∃ st2, promptCommand "ls &".toList 1234 initBufs = .ret 0 st2 ∧
      st2.args.take 2 = [some "ls".toList, none] := by
  refine ⟨by decide, _, rfl, by decide⟩

/-- C3 (amended): for every line on which `promptCommand` returns 0: if the last argument
token of the line (the last token that is neither a redirection operator nor consumed by one)
is exactly `&`, its slot in `args` is set to null, so that the argument list covers only the
tokens before it, and the background flag is 1; otherwise every argument token, `&` included,
stays in the argument list and the background flag is left as it was. -/
theorem promptCommand_background (input : CStr) (pid : Int) (st st2 : Bufs)
    (hst : st.args.length = MAXARGS) (h : promptCommand input pid st = .ret 0 st2) :
    ∃ p A, splitRedirects (spaceFreeRuns input) = some p ∧
      List.Forall₂ (fun t a => expandToken pid t = some a) p.args A ∧
      (p.args.getLast? = some ['&'] →
        st2.background = 1 ∧ st2.args.take A.length = A.dropLast.map some ++ [none] ∧
        argv st2.args = A.dropLast) ∧
      (p.args.getLast? ≠ some ['&'] →
        st2.background = st.background ∧ st2.args.take A.length = A.map some) := by
  have hskip : ¬ (input.head? = some '#' ∨ input = [] ∨ input.head? = some ' ') := by
    intro hs
    simp [promptCommand, hs] at h
  have hlen : ¬ input.length > MAXINPUT := by
    intro hs
    simp [promptCommand, hskip, hs] at h
  have hloop : parseLoop pid (input.length + 1) input
      ({ st with argc := 0 } : Bufs).argc { st with argc := 0 } = .ret 0 st2 := by
    simpa only [promptCommand, hskip, hlen, if_false] using h
  obtain ⟨p, A, hp, hin, hout, hA, hmax⟩ := parseLoop_ret_zero pid _ input _ st2
    (Nat.lt_succ_self _) (by simp) hloop
  have hskip2 : input ≠ [] ∧ input.head? ≠ some '#' ∧ input.head? ≠ some ' ' :=
    ⟨fun e => hskip (Or.inr (Or.inl e)), fun e => hskip (Or.inl e),
      fun e => hskip (Or.inr (Or.inr e))⟩
  have hmax2 : A.length ≤ MAXARGS := by simpa using hmax
  have hne : A ≠ [] := by
    intro h0
    subst h0
    rw [promptCommand_wellFormed input pid st p [] hst hskip2 (by omega) hp hin hout hA hmax2]
      at h
    simp [checkBackground, stored] at h
  obtain ⟨st3, h1, _, _, _, _, h6, h7⟩ := promptCommand_result input pid st p A hst hskip2
    (by omega) hp hin hout hA hne hmax2
  rw [h] at h1
  cases h1
  refine ⟨p, A, hp, hA, ?_, ?_⟩
  · intro hamp
    obtain ⟨hb, ht⟩ := h6 ((forall₂_getLast_amp pid _ _ hA).1 hamp)
    refine ⟨hb, ht, ?_⟩
    rw [← List.take_append_drop A.length st2.args, ht, List.append_assoc, List.singleton_append]
    exact argv_map_some _ _
  · intro hamp
    exact h7 (fun e => hamp ((forall₂_getLast_amp pid _ _ hA).2 e))

/-- The line `sleep 5 &`. -/
theorem promptCommand_background_witness :
    ∃ st2, promptCommand "sleep 5 &".toList 1234 initBufs = .ret 0 st2 ∧
      st2.background = 1 ∧ argv st2.args = ["sleep".toList, "5".toList] := by
  have h : promptCommand "sleep 5 &".toList 1234 initBufs
      = .ret 0 { argc := 3,
                 args := [some "sleep".toList, some "5".toList, none]
                   ++ List.replicate 509 none,
                 inFile := [], outFile := [], background := 1 } := rfl
  obtain ⟨p, A, hp, _, h1, _⟩ := promptCommand_background _ _ _ _ initBufs_args_length h
  have hp2 : p = { args := ["sleep".toList, "5".toList, "&".toList], ins := [], outs := [] } := by
    have : splitRedirects (spaceFreeRuns "sleep 5 &".toList) = some
        { args := ["sleep".toList, "5".toList, "&".toList], ins := [], outs := [] } := by decide
    rw [this] at hp
    exact (Option.some.inj hp).symm
  subst hp2
  exact ⟨_, h, (h1 (by decide)).1, by decide⟩

/-- C3 as stated fails on `ls & > out`: the `&` is not the last token of the line, yet
`promptCommand` sets the background flag and replaces the `&` by a null pointer. -/
theorem promptCommand_amp_before_redirect :
    ∃ st2, promptCommand "ls & > out".toList 1234 initBufs = .ret 0 st2 ∧
      st2.background = 1 ∧ st2.args.take 2 = [some "ls".toList, none] ∧
      st2.outFile = "out".toList := by
  refine ⟨_, rfl, by decide, by decide, by decide⟩

/-- C8 (amended): for every input line that is empty, consists only of spaces, or starts with
`#`, `promptCommand` returns 1 and leaves the argument vector, the argument count, the
redirect paths and the background flag unchanged, and the round of `main` leaves the last
status unchanged too. -/
theorem promptCommand_skip (input : CStr) (pid : Int) (fk : Fork) (w : Waits) (sh : Shell)
    (h : input = [] ∨ (∀ c ∈ input, c = ' ') ∨ input.head? = some '#') :
    promptCommand input pid sh.bufs = .ret 1 sh.bufs ∧
    mainIter input pid fk w sh = .next sh [] := by
  have hs : input.head? = some '#' ∨ input = [] ∨ input.head? = some ' ' := by
    rcases h with h | h | h
    · exact Or.inr (Or.inl h)
    · cases input with
      | nil => exact Or.inr (Or.inl rfl)
      | cons c rest => exact Or.inr (Or.inr (by simp [h c (by simp)]))
    · exact Or.inl h
  have h1 : promptCommand input pid sh.bufs = .ret 1 sh.bufs := by
    simp [promptCommand, hs]
  exact ⟨h1, by simp [mainIter, h1]⟩

/-- A line of three spaces. -/
theorem promptCommand_skip_witness :
    promptCommand "   ".toList 1234 initShell.bufs = .ret 1 initShell.bufs ∧
    mainIter "   ".toList 1234 (.parent 77) ⟨some 0, []⟩ initShell = .next initShell [] :=
  promptCommand_skip "   ".toList 1234 (.parent 77) ⟨some 0, []⟩ initShell
    (Or.inr (Or.inl (by decide)))

/-- C8 as stated fails on a line that is a single tab: the tab is no delimiter, the line is
not skipped; `promptCommand` returns 0 with the tab as `args[0]`. -/
theorem promptCommand_tab_not_skipped :
    ∃ st2, promptCommand ['\t'] 1234 initBufs = .ret 0 st2 ∧
      st2.argc = 1 ∧ st2.args.head? = some (some ['\t']) := by
  refine ⟨_, rfl, by decide, by decide⟩

/-- C5, the code at the failing input: on `ls >` and on `cat <` the token after the operator is
null and `promptCommand` copies from it. -/
theorem promptCommand_dangling_redirect :
    promptCommand "ls >".toList 1234 initBufs = .fault .copyFromNull ∧
    promptCommand "cat <".toList 1234 initBufs = .fault .copyFromNull := by
  constructor <;> rfl

/-- C10, the code at the failing input: on the line `&` `promptCommand` returns 0 with a null
pointer in `args[0]`, and `main` hands it to `strcmp`; on the line `> out` no argument is
stored and `promptCommand` reads `args[-1]`. -/
theorem promptCommand_lone_amp :
    (∃ st2, promptCommand ['&'] 1234 initBufs = .ret 0 st2 ∧ st2.args.head? = some none) ∧
    mainIter ['&'] 1234 (.parent 77) ⟨some 0, []⟩ initShell = .fault .strcmpNull ∧
    promptCommand "> out".toList 1234 initBufs = .fault .argsReadBefore := by
  refine ⟨⟨_, rfl, by decide⟩, by decide, by decide⟩

/-- On `cd &` the `&` is replaced by a null pointer but `*argc` stays 2: `main` takes the branch
for `cd` with an argument and calls `chdir` with the null pointer. -/
theorem mainIter_cd_amp :
    (∃ st2, promptCommand "cd &".toList 1234 initBufs = .ret 0 st2 ∧ st2.argc = 2) ∧
    mainIter "cd &".toList 1234 (.parent 77) ⟨some 0, []⟩ initShell
      = .next initShell [.chdir none] := by
  refine ⟨⟨_, rfl, by decide⟩, rfl⟩

/-! ## execCom -/

/-- The handler of `SIGTSTP` toggles the flag. -/
theorem handle_SIGTSTP_toggles (foreground_only : Nat) :
    ((handle_SIGTSTP foreground_only).1 = 0 ↔ foreground_only ≠ 0) ∧
    (handle_SIGTSTP (handle_SIGTSTP foreground_only).1).1 = if foreground_only ≠ 0 then 1 else 0
    := by
  by_cases h : foreground_only = 0 <;> simp [handle_SIGTSTP, h]

/-- In the parent, with `foreground_only` set, `execCom` does not look at `background`: it
blocks on the child and prints no `Background process id` line. -/
theorem execCom_parent_foreground_only (args : List (Option CStr)) (inFile outFile : CStr)
    (estatus background foreground_only spawnPid : Nat) (w : Waits)
    (h : foreground_only ≠ 0) :
    execCom args inFile outFile estatus background foreground_only (.parent spawnPid) w
      = .parent (reapLoop (w.first.getD estatus) w.reaped).1
          (reapLoop (w.first.getD estatus) w.reaped).2 true := by
  simp [execCom, h]

/-- The paths opened by the child of a background command. -/
theorem execCom_child_background (args : List (Option CStr)) (inFile outFile : CStr)
    (estatus background foreground_only : Nat) (w : Waits) (h : background ≠ 0) :
    execCom args inFile outFile estatus background foreground_only .child w
      = .child (if inFile ≠ [] then some devNull else none)
          (if outFile ≠ [] then some devNull else none) (argv args) := by
  by_cases hi : inFile = [] <;> by_cases ho : outFile = [] <;>
    simp [execCom, h, hi, ho, devNull]

/-- C4, the code at the failing input: for the background command `ls > out.txt` the child
opens `/dev/null` for standard output, not `out.txt`, and leaves standard input alone. -/
theorem execCom_background_explicit_output :
    execCom [some "ls".toList, none] [] "out.txt".toList 0 1 0 .child ⟨none, []⟩
      = .child none (some devNull) ["ls".toList] := by
  decide

/-- C7, the code at the failing input: with `foreground_only` set and the redirection
`< in.txt`, the child opens `/dev/null` when `background` is 1 and `in.txt` when it is 0. -/
theorem execCom_foreground_only_child :
    execCom [some "cat".toList, none] "in.txt".toList [] 0 1 1 .child ⟨none, []⟩
      = .child (some devNull) none ["cat".toList] ∧
    execCom [some "cat".toList, none] "in.txt".toList [] 0 0 1 .child ⟨none, []⟩
      = .child (some "in.txt".toList) none ["cat".toList] := by
  constructor <;> decide

set_option maxRecDepth 8000 in
/-- The macros of `<sys/wait.h>` decode the status of an exited child. -/
theorem exitedStatus_decodes :
    ∀ n, n < 256 → WIFEXITED (exitedStatus n) = true ∧ WEXITSTATUS (exitedStatus n) = n := by
  decide

set_option maxRecDepth 8000 in
/-- The macros of `<sys/wait.h>` decode the status of a child killed by a signal. -/
theorem signaledStatus_decodes :
    ∀ n, n < 128 → 0 < n →
      WIFEXITED (signaledStatus n) = false ∧ WTERMSIG (signaledStatus n) = n := by
  decide

/-- With no child reaped by the loop, the status of the foreground child is the last status. -/
theorem execCom_foreground_status (args : List (Option CStr)) (inFile outFile : CStr)
    (estatus foreground_only spawnPid s : Nat) :
    execCom args inFile outFile estatus 0 foreground_only (.parent spawnPid) ⟨some s, []⟩
      = .parent s [] true := by
  simp [execCom, reapLoop]

/-- C6, the code at the failing input: the foreground child exits with code 3 and the reaping
loop of the same call collects a background child that exited with code 0; the last status
then decodes to `exit value 0`. -/
theorem execCom_status_overwritten :
    ∃ e out, execCom [some "false".toList, none] [] [] 0 0 0 (.parent 101)
        ⟨some (exitedStatus 3), [(100, exitedStatus 0)]⟩ = .parent e out true ∧
      printStatus e = "exit value 0\n".toList ∧
      printStatus (exitedStatus 3) = "exit value 3\n".toList := by
  refine ⟨_, _, rfl, by decide, by decide⟩

set_option maxRecDepth 100000 in
/-- C9, the code at the failing input: on a line of 513 arguments `promptCommand` does not
reject the line; the check `*argc > 512` still passes for the last token and the store goes
to `args[512]`, outside the array. -/
theorem promptCommand_513_args :
    (spaceFreeRuns manyArgsLine).length = 513 ∧
    promptCommand manyArgsLine 1234 initBufs = .fault (.argsStore 512) := by
  constructor
  · decide
  · decide

end Smallsh
